import Mathlib

set_option maxHeartbeats 1000000

/-! Verification of the BIP39 phrase finder (`main.py`).

Python strings are modelled as lists of characters (`Str`), Python sets of
strings as `Finset Str`, and the module-level globals (`BIP39_WORDS`,
`MIN_PHRASE_LENGTH`, `MAX_PHRASE_LENGTH`, `MIN_BIP39_MATCHES`,
`COMMON_SUBSTITUTIONS`, `MAX_CHANGES`) as explicit parameters of the
embedded functions. -/

abbrev Str := List Char

/-- Three-argument minimum, `min(a, b, c)` in Python. -/
def min3 (a b c : Nat) : Nat := min (min a b) c

theorem min3_le_1 (a b c : Nat) : min3 a b c ≤ a :=
  le_trans (min_le_left _ _) (min_le_left _ _)

theorem min3_le_2 (a b c : Nat) : min3 a b c ≤ b :=
  le_trans (min_le_left _ _) (min_le_right _ _)

theorem min3_le_3 (a b c : Nat) : min3 a b c ≤ c := min_le_right _ _

theorem le_min3 {x a b c : Nat} (h1 : x ≤ a) (h2 : x ≤ b) (h3 : x ≤ c) :
    x ≤ min3 a b c := le_min (le_min h1 h2) h3

theorem min3_rows_le_cols (x11 x12 x13 x21 x22 x23 x31 x32 x33 : Nat) :
    min3 (min3 x11 x12 x13) (min3 x21 x22 x23) (min3 x31 x32 x33) ≤
      min3 (min3 x11 x21 x31) (min3 x12 x22 x32) (min3 x13 x23 x33) :=
  le_min3
    (le_min3 (le_trans (min3_le_1 _ _ _) (min3_le_1 _ _ _))
      (le_trans (min3_le_2 _ _ _) (min3_le_1 _ _ _))
      (le_trans (min3_le_3 _ _ _) (min3_le_1 _ _ _)))
    (le_min3 (le_trans (min3_le_1 _ _ _) (min3_le_2 _ _ _))
      (le_trans (min3_le_2 _ _ _) (min3_le_2 _ _ _))
      (le_trans (min3_le_3 _ _ _) (min3_le_2 _ _ _)))
    (le_min3 (le_trans (min3_le_1 _ _ _) (min3_le_3 _ _ _))
      (le_trans (min3_le_2 _ _ _) (min3_le_3 _ _ _))
      (le_trans (min3_le_3 _ _ _) (min3_le_3 _ _ _)))

/-- Minimum over a 3×3 matrix: by rows equals by columns. -/
theorem min3_transpose (x11 x12 x13 x21 x22 x23 x31 x32 x33 : Nat) :
    min3 (min3 x11 x12 x13) (min3 x21 x22 x23) (min3 x31 x32 x33) =
      min3 (min3 x11 x21 x31) (min3 x12 x22 x32) (min3 x13 x23 x33) :=
  le_antisymm (min3_rows_le_cols _ _ _ _ _ _ _ _ _)
    (min3_rows_le_cols x11 x21 x31 x12 x22 x32 x13 x23 x33)

theorem min3_add (a b c d : Nat) :
    min3 a b c + d = min3 (a + d) (b + d) (c + d) := by
  unfold min3
  rw [← min_add_add_right, ← min_add_add_right]

theorem min3_comm12 (a b c : Nat) : min3 a b c = min3 b a c := by
  unfold min3
  rw [min_comm a b]

/-- Reference (mathematical) Levenshtein edit distance with the classic
unit-cost single-character insertion / deletion / substitution model,
defined by the textbook recursion on the fronts of the two strings. -/
def lev : Str → Str → Nat
  | [], ys => ys.length
  | x :: xs, [] => (x :: xs).length
  | x :: xs, y :: ys =>
    min3 (lev (x :: xs) ys + 1) (lev xs (y :: ys) + 1)
      (lev xs ys + (if x = y then 0 else 1))
termination_by xs ys => xs.length + ys.length
decreasing_by
  all_goals simp [List.length_cons]
  all_goals omega

theorem lev_nil_left (ys : Str) : lev [] ys = ys.length := by
  cases ys <;> simp [lev]

theorem lev_nil_right (xs : Str) : lev xs [] = xs.length := by
  cases xs <;> simp [lev]

theorem lev_cons_cons (x y : Char) (xs ys : Str) :
    lev (x :: xs) (y :: ys) =
      min3 (lev (x :: xs) ys + 1) (lev xs (y :: ys) + 1)
        (lev xs ys + (if x = y then 0 else 1)) := by
  rw [lev]

/-- The append-at-the-end recursion satisfied by `lev`: the classic
recurrence also holds when decomposing both strings at their last
characters. -/
theorem lev_app (x y : Char) :
    ∀ xs ys : Str, lev (xs ++ [x]) (ys ++ [y]) =
      min3 (lev (xs ++ [x]) ys + 1) (lev xs (ys ++ [y]) + 1)
        (lev xs ys + (if x = y then 0 else 1)) := by
  intro xs
  induction xs with
  | nil =>
    intro ys
    induction ys with
    | nil =>
      simp only [List.nil_append]
      rw [lev_cons_cons]
    | cons b ys ihy =>
      simp only [List.nil_append, List.cons_append] at ihy ⊢
      simp only [lev_cons_cons]
      rw [ihy]
      simp only [lev_nil_left, List.length_append, List.length_cons,
        List.length_nil]
      generalize lev [x] ys = A
      generalize (if x = y then 0 else 1) = c
      generalize (if x = b then 0 else 1) = d
      generalize List.length ys = n
      unfold min3
      omega
  | cons a xs ih =>
    intro ys
    induction ys with
    | nil =>
      have h0 := ih []
      simp only [List.nil_append, List.cons_append] at h0 ⊢
      simp only [lev_cons_cons]
      rw [h0]
      simp only [lev_nil_left, lev_nil_right, List.length_append,
        List.length_cons, List.length_nil]
      generalize lev xs [y] = B
      generalize (if x = y then 0 else 1) = c
      generalize (if a = y then 0 else 1) = e
      generalize List.length xs = n
      unfold min3
      omega
    | cons b ys ihy =>
      have h1 := ih (b :: ys)
      have h2 := ih ys
      simp only [List.cons_append] at h1 h2 ihy ⊢
      simp only [lev_cons_cons]
      rw [h1, h2, ihy]
      generalize lev (a :: (xs ++ [x])) ys = P1
      generalize lev (a :: xs) (ys ++ [y]) = P2
      generalize lev (a :: xs) ys = P3
      generalize lev (xs ++ [x]) (b :: ys) = Q1
      generalize lev xs (b :: (ys ++ [y])) = Q2
      generalize lev xs (b :: ys) = Q3
      generalize lev (xs ++ [x]) ys = R1
      generalize lev xs (ys ++ [y]) = R2
      generalize lev xs ys = R3
      generalize (if x = y then 0 else 1) = c
      generalize (if a = b then 0 else 1) = k
      simp only [min3_add]
      ring_nf
      rw [min3_transpose]

/-- Levenshtein distance is symmetric. -/
theorem lev_comm (xs ys : Str) : lev xs ys = lev ys xs := by
  suffices h : ∀ (n : Nat) (xs ys : Str), xs.length + ys.length ≤ n →
      lev xs ys = lev ys xs from h (xs.length + ys.length) xs ys le_rfl
  intro n
  induction n with
  | zero =>
    intro xs ys h
    have hx : xs = [] := List.length_eq_zero.mp (by omega)
    have hy : ys = [] := List.length_eq_zero.mp (by omega)
    subst hx; subst hy; rfl
  | succ n ih =>
    intro xs ys h
    cases xs with
    | nil => rw [lev_nil_left, lev_nil_right]
    | cons x xs =>
      cases ys with
      | nil => rw [lev_nil_left, lev_nil_right]
      | cons y ys =>
        simp only [List.length_cons] at h
        rw [lev_cons_cons, lev_cons_cons]
        rw [ih (x :: xs) ys (by simp only [List.length_cons]; omega),
          ih xs (y :: ys) (by simp only [List.length_cons]; omega),
          ih xs ys (by omega)]
        have hc : (if x = y then 0 else 1) = (if y = x then 0 else 1) := by
          by_cases hxy : x = y
          · simp [hxy]
          · rw [if_neg hxy, if_neg (Ne.symm hxy)]
        rw [hc, min3_comm12]

/-- Levenshtein distance is invariant under reversing both strings. -/
theorem lev_reverse (xs ys : Str) : lev xs.reverse ys.reverse = lev xs ys := by
  suffices h : ∀ (n : Nat) (xs ys : Str), xs.length + ys.length ≤ n →
      lev xs.reverse ys.reverse = lev xs ys from
    h (xs.length + ys.length) xs ys le_rfl
  intro n
  induction n with
  | zero =>
    intro xs ys h
    have hx : xs = [] := List.length_eq_zero.mp (by omega)
    have hy : ys = [] := List.length_eq_zero.mp (by omega)
    subst hx; subst hy; rfl
  | succ n ih =>
    intro xs ys h
    cases xs with
    | nil => simp [lev_nil_left]
    | cons x xs =>
      cases ys with
      | nil => simp [lev_nil_right]
      | cons y ys =>
        simp only [List.length_cons] at h
        rw [List.reverse_cons, List.reverse_cons, lev_app, lev_cons_cons]
        rw [← List.reverse_cons x xs, ← List.reverse_cons y ys]
        rw [ih (x :: xs) ys (by simp only [List.length_cons]; omega),
          ih xs (y :: ys) (by simp only [List.length_cons]; omega),
          ih xs ys (by omega)]

theorem lev_self (xs : Str) : lev xs xs = 0 := by
  induction xs with
  | nil => simp [lev_nil_left]
  | cons x xs ih =>
    rw [lev_cons_cons, ih, if_pos rfl]
    exact Nat.le_zero.mp (min3_le_3 _ _ 0)

theorem lev_eq_zero_iff (xs ys : Str) : lev xs ys = 0 ↔ xs = ys := by
  constructor
  · suffices h : ∀ (n : Nat) (xs ys : Str), xs.length + ys.length ≤ n →
        lev xs ys = 0 → xs = ys from h (xs.length + ys.length) xs ys le_rfl
    intro n
    induction n with
    | zero =>
      intro xs ys h h0
      have hx : xs = [] := List.length_eq_zero.mp (by omega)
      have hy : ys = [] := List.length_eq_zero.mp (by omega)
      rw [hx, hy]
    | succ n ih =>
      intro xs ys h h0
      cases xs with
      | nil =>
        cases ys with
        | nil => rfl
        | cons y ys => rw [lev_nil_left] at h0; simp at h0
      | cons x xs =>
        cases ys with
        | nil => rw [lev_nil_right] at h0; simp at h0
        | cons y ys =>
          simp only [List.length_cons] at h
          rw [lev_cons_cons] at h0
          unfold min3 at h0
          rw [Nat.min_eq_zero_iff] at h0
          rcases h0 with h0 | h0
          · rw [Nat.min_eq_zero_iff] at h0
            rcases h0 with h0 | h0 <;> exact absurd h0 (Nat.succ_ne_zero _)
          · by_cases hxy : x = y
            · rw [if_pos hxy, Nat.add_zero] at h0
              rw [hxy, ih xs ys (by omega) h0]
            · rw [if_neg hxy] at h0
              exact absurd h0 (Nat.succ_ne_zero _)
  · intro h
    rw [h, lev_self]

/-! ### The Python dynamic program (`levenshtein_distance`, main.py:28-42)

The inner `for j, c2 in enumerate(s2)` loop is embedded as `levRow`
(threading the tail of `previous_row` and the most recent `current_row`
entry), the outer `for i, c1 in enumerate(s1)` loop as `levRows`. -/

/-- Inner loop of the Python DP: given the remaining part of `s2`, the
remaining entries `p0 :: prest` of `previous_row` (so that
`insertions = prest.head + 1`, `substitutions = p0 + cost`) and the last
entry `last` of `current_row` (so `deletions = last + 1`), produce the
remaining entries of `current_row`. -/
def levRow (c1 : Char) : Str → List Nat → Nat → List Nat
  | c2 :: s2, p0 :: prest, last =>
    let cur := min3 (prest.headD 0 + 1) (last + 1)
      (p0 + (if c1 = c2 then 0 else 1))
    cur :: levRow c1 s2 prest cur
  | [], _, _ => []
  | _ :: _, [], _ => []

/-- Outer loop of the Python DP: fold the rows over `s1`; `i` is the
0-based index of the current character `c1` (so each `current_row` starts
with `i + 1`).  Returns `previous_row[-1]`. -/
def levRows (s2 : Str) : Str → List Nat → Nat → Nat
  | [], prev, _ => prev.getLastD 0
  | c1 :: s1, prev, i => levRows s2 s1 ((i + 1) :: levRow c1 s2 prev (i + 1)) (i + 1)

/-- Body of `levenshtein_distance` after the initial swap (main.py:31-42):
`if len(s2) == 0: return len(s1)` then the row DP starting from
`previous_row = range(len(s2) + 1)`. -/
def levCore (s1 s2 : Str) : Nat :=
  if s2.length = 0 then s1.length
  else levRows s2 s1 (List.range (s2.length + 1)) 0

/-- `levenshtein_distance` (main.py:28-42).  The Python function first
swaps its arguments when `len(s1) < len(s2)`; after the swap the guard is
false, so the recursion amounts to one conditional swap before `levCore`. -/
def levenshtein_distance (s1 s2 : Str) : Nat :=
  if s1.length < s2.length then levCore s2 s1 else levCore s1 s2

theorem headD_map_range (n : Nat) (g : Nat → Nat) (d : Nat) :
    ((List.range (n + 1)).map g).headD d = g 0 := by
  rw [List.range_succ_eq_map]
  simp

theorem getLastD_map_range (n : Nat) (g : Nat → Nat) (d : Nat) :
    ((List.range (n + 1)).map g).getLastD d = g n := by
  rw [List.range_succ]
  simp

/-- Row invariant of the inner DP loop: if `previous_row` holds the
distances from `dR` to the (reversed) prefixes of the remaining part `v`
of `s2` (each extended by the already-consumed part `uR`), the loop
produces the corresponding entries of `current_row` for `c1 :: dR`. -/
theorem levRow_spec (c1 : Char) (dR : Str) :
    ∀ v uR : Str,
      levRow c1 v
          ((List.range (v.length + 1)).map (fun t => lev dR ((v.take t).reverse ++ uR)))
          (lev (c1 :: dR) uR)
        = (List.range v.length).map (fun t => lev (c1 :: dR) ((v.take (t + 1)).reverse ++ uR)) := by
  intro v
  induction v with
  | nil => intro uR; simp [levRow]
  | cons c2 v ihv =>
    intro uR
    have hsplit : (List.range ((c2 :: v).length + 1)).map
          (fun t => lev dR (((c2 :: v).take t).reverse ++ uR))
        = lev dR uR ::
          (List.range (v.length + 1)).map (fun t => lev dR ((v.take t).reverse ++ (c2 :: uR))) := by
      rw [List.length_cons, List.range_succ_eq_map]
      simp only [List.map_cons, List.map_map]
      congr 1
      all_goals simp [Function.comp_def, Nat.succ_eq_add_one, List.take_succ_cons,
        List.reverse_cons, List.append_assoc, List.singleton_append]
    rw [hsplit]
    rw [levRow]
    have hhead : ((List.range (v.length + 1)).map
        (fun t => lev dR ((v.take t).reverse ++ (c2 :: uR)))).headD 0 = lev dR (c2 :: uR) := by
      rw [headD_map_range]
      simp
    rw [hhead]
    have hcur : min3 (lev dR (c2 :: uR) + 1) (lev (c1 :: dR) uR + 1)
        (lev dR uR + (if c1 = c2 then 0 else 1)) = lev (c1 :: dR) (c2 :: uR) := by
      rw [lev_cons_cons, min3_comm12]
    rw [hcur, ihv (c2 :: uR)]
    have htgt : (List.range ((c2 :: v).length)).map
          (fun t => lev (c1 :: dR) (((c2 :: v).take (t + 1)).reverse ++ uR))
        = lev (c1 :: dR) (c2 :: uR) ::
          (List.range v.length).map (fun t => lev (c1 :: dR) ((v.take (t + 1)).reverse ++ (c2 :: uR))) := by
      rw [List.length_cons, List.range_succ_eq_map]
      simp only [List.map_cons, List.map_map]
      congr 1
      all_goals simp [Function.comp_def, Nat.succ_eq_add_one, List.take_succ_cons,
        List.reverse_cons, List.append_assoc, List.singleton_append]
    rw [htgt]

/-- Outer-loop invariant: starting from the row of distances for the
already-consumed prefix (reversed, `dR`) of `s1`, folding the remaining
characters yields the distance between the whole (reversed) `s1` and the
reversed `s2`. -/
theorem levRows_spec (s2 : Str) :
    ∀ s1 dR : Str,
      levRows s2 s1 ((List.range (s2.length + 1)).map (fun t => lev dR ((s2.take t).reverse)))
          dR.length
        = lev (s1.reverse ++ dR) s2.reverse := by
  intro s1
  induction s1 with
  | nil =>
    intro dR
    simp only [levRows]
    rw [getLastD_map_range]
    simp [List.take_length]
  | cons c1 s1 ihs =>
    intro dR
    simp only [levRows]
    have hrow := levRow_spec c1 dR s2 []
    simp only [List.append_nil, lev_nil_right, List.length_cons] at hrow
    rw [hrow]
    have hcol : (dR.length + 1) ::
          (List.range s2.length).map (fun t => lev (c1 :: dR) ((s2.take (t + 1)).reverse))
        = (List.range (s2.length + 1)).map (fun t => lev (c1 :: dR) ((s2.take t).reverse)) := by
      rw [List.range_succ_eq_map]
      simp only [List.map_cons, List.map_map]
      congr 1
      all_goals simp [lev_nil_right, Function.comp_def, Nat.succ_eq_add_one]
    rw [hcol]
    have hend := ihs (c1 :: dR)
    simp only [List.length_cons] at hend
    rw [hend, List.reverse_cons, List.append_assoc, List.singleton_append]

theorem levCore_eq (s1 s2 : Str) : levCore s1 s2 = lev s1.reverse s2.reverse := by
  unfold levCore
  by_cases h : s2.length = 0
  · rw [if_pos h]
    have h2 : s2 = [] := List.length_eq_zero.mp h
    subst h2
    simp [lev_nil_right]
  · rw [if_neg h]
    have hinit : (List.range (s2.length + 1)).map (fun t => lev [] ((s2.take t).reverse))
        = List.range (s2.length + 1) := by
      have h1 : ∀ t ∈ List.range (s2.length + 1), lev [] ((s2.take t).reverse) = t := by
        intro t ht
        rw [lev_nil_left, List.length_reverse, List.length_take]
        rw [List.mem_range] at ht
        omega
      calc (List.range (s2.length + 1)).map (fun t => lev [] ((s2.take t).reverse))
          = (List.range (s2.length + 1)).map id := List.map_congr_left h1
        _ = List.range (s2.length + 1) := List.map_id _
    rw [← hinit]
    have h2 := levRows_spec s2 s1 []
    simp only [List.length_nil] at h2
    rw [h2]
    simp

/-- The Python dynamic program computes exactly the reference Levenshtein
distance. -/
theorem levenshtein_eq_lev (s1 s2 : Str) : levenshtein_distance s1 s2 = lev s1 s2 := by
  unfold levenshtein_distance
  by_cases h : s1.length < s2.length
  · rw [if_pos h, levCore_eq, lev_reverse, lev_comm]
  · rw [if_neg h, levCore_eq, lev_reverse]

/-- `is_similar_to_bip39` (main.py:44-50): scan the wordlist, and accept as
soon as an entry has the same length as `word` and Levenshtein distance at
most `max_changes` from it.  (The `lru_cache` decorator only memoizes and
does not change the function's value, so it is not modelled.) -/
def is_similar_to_bip39 (word : Str) (max_changes : Nat) (bip39_words : List Str) : Bool :=
  bip39_words.any (fun w =>
    word.length == w.length && decide (levenshtein_distance word w ≤ max_changes))

/-- Claim C1: for every word, maxChanges and wordlist,
`is_similar_to_bip39 word maxChanges wordlist` returns true if and only if
some wordlist entry of the same length as `word` is at Levenshtein
distance at most `maxChanges` from `word` (entries of a different length
are never considered); in particular with `maxChanges = 0` it returns true
exactly when `word` is a member of the wordlist. -/
theorem c1_is_similar_iff (word : Str) (d : Nat) (wl : List Str) :
    (is_similar_to_bip39 word d wl = true ↔
      ∃ w ∈ wl, w.length = word.length ∧ lev word w ≤ d) ∧
    (is_similar_to_bip39 word 0 wl = true ↔ word ∈ wl) := by
  have hmain : ∀ e : Nat, (is_similar_to_bip39 word e wl = true ↔
      ∃ w ∈ wl, w.length = word.length ∧ lev word w ≤ e) := by
    intro e
    unfold is_similar_to_bip39
    rw [List.any_eq_true]
    constructor
    · rintro ⟨w, hw, hcond⟩
      rw [Bool.and_eq_true, beq_iff_eq, decide_eq_true_eq, levenshtein_eq_lev] at hcond
      exact ⟨w, hw, hcond.1.symm, hcond.2⟩
    · rintro ⟨w, hw, hlen, hle⟩
      refine ⟨w, hw, ?_⟩
      rw [Bool.and_eq_true, beq_iff_eq, decide_eq_true_eq, levenshtein_eq_lev]
      exact ⟨hlen.symm, hle⟩
  refine ⟨hmain d, ?_⟩
  rw [hmain 0]
  constructor
  · rintro ⟨w, hw, hlen, hle⟩
    have h0 : word = w := (lev_eq_zero_iff word w).mp (Nat.le_zero.mp hle)
    rw [h0]
    exact hw
  · intro hmem
    exact ⟨word, hmem, rfl, by rw [lev_self]⟩

/-- Claim C9: the edit distance computed by `levenshtein_distance` is
symmetric on equal-length strings, so similarity of `a` to `b` at any
bound equals similarity of `b` to `a`. -/
theorem c9_levenshtein_symm (a b : Str) (d : Nat) (h : a.length = b.length) :
    levenshtein_distance a b = levenshtein_distance b a ∧
      is_similar_to_bip39 a d [b] = is_similar_to_bip39 b d [a] := by
  constructor
  · rw [levenshtein_eq_lev, levenshtein_eq_lev, lev_comm]
  · unfold is_similar_to_bip39
    simp only [List.any_cons, List.any_nil, Bool.or_false]
    rw [levenshtein_eq_lev, levenshtein_eq_lev, lev_comm a b, h]

/-- Witness for C9 at the concrete pair "abc" / "abd". -/
theorem c9_levenshtein_symm_witness :
    (['a', 'b', 'c'] : Str).length = (['a', 'b', 'd'] : Str).length ∧
      (levenshtein_distance ['a', 'b', 'c'] ['a', 'b', 'd']
          = levenshtein_distance ['a', 'b', 'd'] ['a', 'b', 'c'] ∧
        is_similar_to_bip39 ['a', 'b', 'c'] 1 [['a', 'b', 'd']]
          = is_similar_to_bip39 ['a', 'b', 'd'] 1 [['a', 'b', 'c']]) :=
  ⟨by decide, c9_levenshtein_symm ['a', 'b', 'c'] ['a', 'b', 'd'] 1 (by decide)⟩

/-! ### Characters, lowercasing, tokenization -/

/-- Python `str.lower()` on one character, for the character ranges this
program manipulates: ASCII Latin `A`-`Z`, Cyrillic `А`-`Я` (U+0410-U+042F)
and `Ё` (U+0401); all other characters are left unchanged. -/
def pyLowerChar (c : Char) : Char :=
  if 65 ≤ c.toNat ∧ c.toNat ≤ 90 then Char.ofNat (c.toNat + 32)
  else if 0x410 ≤ c.toNat ∧ c.toNat ≤ 0x42F then Char.ofNat (c.toNat + 32)
  else if c.toNat = 0x401 then Char.ofNat 0x451
  else c

/-- `word.lower()`. -/
def pyLower (s : Str) : Str := s.map pyLowerChar

/-- The whitespace characters of Python `str.split()`, `str.strip()` and
the regex class `\s` (ASCII subset: space, tab, newline, carriage return,
vertical tab, form feed). -/
def wsChar (c : Char) : Bool :=
  c = ' ' || c = '\t' || c = '\n' || c = '\r' || c = Char.ofNat 11 || c = Char.ofNat 12

/-- Helper for `pySplit`: walk the string, cutting at every whitespace
character; `acc` holds the (reversed) current piece. -/
def splitAux : Str → Str → List Str
  | [], acc => [acc.reverse]
  | c :: rest, acc =>
    if wsChar c then acc.reverse :: splitAux rest []
    else splitAux rest (c :: acc)

/-- Python `text.split()` (no separator argument): split on whitespace and
drop the empty pieces. -/
def pySplit (s : Str) : List Str := (splitAux s []).filter (fun w => !w.isEmpty)

/-- `" ".join(words)`. -/
def joinSp : List Str → Str
  | [] => []
  | [w] => w
  | w :: ws => w ++ ' ' :: joinSp ws

/-- The character class of `re.sub(r'[^a-zA-Zа-яА-Я]', '', ...)`
(main.py:108): ASCII Latin letters and the Cyrillic ranges
`а`-`я` (U+0430-U+044F) and `А`-`Я` (U+0410-U+042F). -/
def keepAlpha (c : Char) : Bool :=
  (97 ≤ c.toNat && c.toNat ≤ 122) || (65 ≤ c.toNat && c.toNat ≤ 90) ||
    (0x430 ≤ c.toNat && c.toNat ≤ 0x44F) || (0x410 ≤ c.toNat && c.toNat ≤ 0x42F)

/-- One cleaned token: `re.sub(r'[^a-zA-Zа-яА-Я]', '', word.lower())`. -/
def cleanToken (w : Str) : Str := (pyLower w).filter keepAlpha

/-! ### `normalize_word` (main.py:52-63) -/

/-- A substitution table: ordered pairs of a canonical letter and the
glyphs commonly substituted for it (`COMMON_SUBSTITUTIONS`, main.py:18-25,
is the table the program uses; every glyph is a single character). -/
abbrev SubTable := List (Char × List Char)

def COMMON_SUBSTITUTIONS : SubTable :=
  [('a', ['@', '4']), ('o', ['0']), ('l', ['1', 'I']), ('e', ['3']),
   ('s', ['$', '5']), ('i', ['1', '!'])]

/-- `word.replace(sub, orig)` for a single-character pattern. -/
def subCandidate (w : Str) (sub orig : Char) : Str :=
  w.map (fun c => if c = sub then orig else c)

/-- Inner loop of `normalize_word`: try each glyph of one table entry;
return the first replacement that is a wordlist hit. -/
def tryGlyphs (w : Str) (wl : List Str) (orig : Char) : List Char → Option Str
  | [] => none
  | s :: rest =>
    if decide (s ∈ w) && decide (subCandidate w s orig ∈ wl) then
      some (subCandidate w s orig)
    else tryGlyphs w wl orig rest

/-- Outer loop of `normalize_word` over the substitution table. -/
def trySubs (w : Str) (wl : List Str) : SubTable → Option Str
  | [] => none
  | (orig, glyphs) :: rest =>
    match tryGlyphs w wl orig glyphs with
    | some c => some c
    | none => trySubs w wl rest

/-- `normalize_word` (main.py:52-63): lowercase the word; if it is a
wordlist hit return it; otherwise try the single-glyph substitutions in
table order and return the first that produces a wordlist hit; otherwise
return the lowercased word unchanged.  (Note: the function does not strip
non-letter characters; that is done by the caller, main.py:108.) -/
def normalize_word (w : Str) (subs : SubTable) (wl : List Str) : Str :=
  let lw := pyLower w
  if lw ∈ wl then lw
  else
    match trySubs lw wl subs with
    | some c => c
    | none => lw

/-- The loop over one table entry returns precisely the first candidate in
glyph order that is a wordlist hit. -/
theorem tryGlyphs_eq (w : Str) (wl : List Str) (o : Char) :
    ∀ gs : List Char,
      tryGlyphs w wl o gs
        = (((gs.filter (fun s => decide (s ∈ w))).map (fun s => subCandidate w s o)).filter
            (fun c => decide (c ∈ wl))).head? := by
  intro gs
  induction gs with
  | nil => simp [tryGlyphs]
  | cons s rest ih =>
    by_cases hs : s ∈ w
    · by_cases hc : subCandidate w s o ∈ wl
      · simp [tryGlyphs, hs, hc]
      · simp [tryGlyphs, hs, hc, ih]
    · simp [tryGlyphs, hs, ih]

/-- The outer loop returns precisely the first candidate, in table order,
that is a wordlist hit. -/
theorem trySubs_eq (w : Str) (wl : List Str) :
    ∀ subs : SubTable,
      trySubs w wl subs
        = ((subs.flatMap (fun p =>
              (p.2.filter (fun s => decide (s ∈ w))).map (fun s => subCandidate w s p.1))).filter
            (fun c => decide (c ∈ wl))).head? := by
  intro subs
  induction subs with
  | nil => simp [trySubs]
  | cons p rest ih =>
    obtain ⟨o, gs⟩ := p
    simp only [trySubs, tryGlyphs_eq, List.flatMap_cons, List.filter_append, List.head?_append]
    cases hh : (((gs.filter (fun s => decide (s ∈ w))).map (fun s => subCandidate w s o)).filter
        (fun c => decide (c ∈ wl))).head? with
    | none => simp [ih]
    | some c => simp

/-- The candidate list `normalize_word` scans, in order: the lowercased
token itself, then, for each substitution-table entry in order and each of
its glyphs occurring in the token, the token with every occurrence of that
glyph replaced by the entry's canonical letter. -/
def normCandidates (lw : Str) (subs : SubTable) : List Str :=
  lw :: subs.flatMap (fun p =>
    (p.2.filter (fun s => decide (s ∈ lw))).map (fun s => subCandidate lw s p.1))

/-- Claim C4 (amended): `normalize_word` lowercases the raw token but does
not strip characters outside the alphabet (stripping is performed by the
caller before tokens reach the validator); if the lowercased token is a
wordlist hit it is returned as-is; otherwise the single-glyph
substitutions are tried in table order and the first candidate producing a
wordlist hit is returned; if none yields a hit the lowercased,
unsubstituted token is returned.  Formally: the result is the first
wordlist hit in the candidate list, defaulting to the lowercased token. -/
theorem c4_normalize_first_hit (w : Str) (subs : SubTable) (wl : List Str) :
    normalize_word w subs wl
      = ((normCandidates (pyLower w) subs).filter (fun c => decide (c ∈ wl))).headD (pyLower w) := by
  by_cases h : pyLower w ∈ wl
  · simp [normalize_word, normCandidates, List.filter_cons, h]
  · have hd : decide (pyLower w ∈ wl) = false := by simp [h]
    simp only [normalize_word, normCandidates, List.filter_cons, hd,
      Bool.false_eq_true, if_false, if_neg h]
    rw [trySubs_eq, List.headD_eq_head?_getD]
    cases hh : ((subs.flatMap (fun p =>
        (p.2.filter (fun s => decide (s ∈ pyLower w))).map
          (fun s => subCandidate (pyLower w) s p.1))).filter
        (fun c => decide (c ∈ wl))).head? <;> simp [hh]

/-- Counterexample to claim C4 as stated: `normalize_word` does not strip
characters outside the alphabet.  On the raw token "ABC!" with the
program's substitution table and a wordlist containing "abc", the claim
predicts the result "abc" (strip then hit); the code returns "abc!". -/
theorem c4_counterexample :
    normalize_word ['A', 'B', 'C', '!'] COMMON_SUBSTITUTIONS [['a', 'b', 'c']]
        = ['a', 'b', 'c', '!'] ∧
      normalize_word ['A', 'B', 'C', '!'] COMMON_SUBSTITUTIONS [['a', 'b', 'c']]
        ≠ ['a', 'b', 'c'] := by
  constructor
  · decide
  · decide

/-! ### `clean_prefix_suffix` (main.py:65-75)

The two fixed regular expressions are embedded by their matching
semantics.  `re.match` anchors at the start of the string; `re.IGNORECASE`
is modelled by comparing lowercased characters; `.` matches any character
except a newline; `$` matches at the end of the string or just before a
final newline. -/

/-- The alternatives of `(myseed|btc|wallet|phrase|seed)` in order. -/
def pfxList : List Str :=
  [['m', 'y', 's', 'e', 'e', 'd'], ['b', 't', 'c'],
   ['w', 'a', 'l', 'l', 'e', 't'], ['p', 'h', 'r', 'a', 's', 'e'],
   ['s', 'e', 'e', 'd']]

/-- Case-insensitive "text starts with p". -/
def startsWithCI (p s : Str) : Bool := (pyLower p).isPrefixOf (pyLower s)

/-- Whether the remainder after a matched alternative satisfies `\s*(.+)`:
some position holds a non-newline character preceded only by whitespace
(`\s*` may consume any amount of leading whitespace by backtracking; `.`
matches anything but a newline, whitespace included). -/
def tailMatches : Str → Bool
  | [] => false
  | c :: rest => decide (c ≠ '\n') || (wsChar c && tailMatches rest)

/-- `re.match(r'^(myseed|btc|wallet|phrase|seed)\s*(.+)', text, re.IGNORECASE)`
restricted to `group(1)`: the first alternative that matches at the start
of `text` and whose remainder matches `\s*(.+)`; the group is the matched
prefix as written in `text`. -/
def pat1 (text : Str) : Option Str :=
  pfxList.findSome? (fun p =>
    if startsWithCI p text && tailMatches (text.drop p.length) then
      some (text.take p.length)
    else none)

/-- The alternatives of `(123|pass|key)`. -/
def sufList : List Str := [['1', '2', '3'], ['p', 'a', 's', 's'], ['k', 'e', 'y']]

/-- Whether `r` is exactly a suffix alternative followed by the `$`
anchor: the alternative itself, or the alternative plus one final
newline (case-insensitively). -/
def suffixEndOk (r : Str) : Bool :=
  sufList.any (fun s => pyLower r == s || pyLower r == s ++ ['\n'])

/-- Whether `r` matches `\s*(123|pass|key)$`. -/
def restSuf : Str → Bool
  | [] => suffixEndOk []
  | c :: rest => suffixEndOk (c :: rest) || (wsChar c && restSuf rest)

/-- `re.match(r'(.+)\s*(123|pass|key)$', text, re.IGNORECASE)` restricted
to `group(1)`: the longest non-empty newline-free prefix of `text` whose
remainder matches `\s*(123|pass|key)$` (a greedy `.+` backtracks from the
longest candidate downwards). -/
def pat2 (text : Str) : Option Str :=
  (List.range text.length).reverse.findSome? (fun k =>
    if (text.take (k + 1)).all (fun c => decide (c ≠ '\n'))
        && restSuf (text.drop (k + 1)) then
      some (text.take (k + 1))
    else none)

/-- Python `str.strip()`. -/
def pyStrip (s : Str) : Str := ((s.dropWhile wsChar).reverse.dropWhile wsChar).reverse

/-- `clean_prefix_suffix` (main.py:65-75): try the prefix pattern, then
the suffix pattern; on the first match return `group(1).strip()`, with no
match return the text unchanged. -/
def clean_prefix_suffix (text : Str) : Str :=
  match pat1 text with
  | some g => pyStrip g
  | none =>
    match pat2 text with
    | some g => pyStrip g
    | none => text

/-! ### `is_valid_phrase` (main.py:77-99) and the extractor (main.py:101-139) -/

/-- The three configurable globals the extractor reads
(`MIN_PHRASE_LENGTH`, `MAX_PHRASE_LENGTH`, `MIN_BIP39_MATCHES`). -/
structure Cfg where
  minLen : Nat
  maxLen : Nat
  minMatches : Nat

/-- A normalized token counts as a BIP39 hit when it is a literal wordlist
member or the fuzzy matcher accepts it (main.py:86-90; the `elif` makes
this an inclusive or). -/
def hitWord (wl : List Str) (maxCh : Nat) (w : Str) : Bool :=
  decide (w ∈ wl) || is_similar_to_bip39 w maxCh wl

/-- Guard of the length heuristic (main.py:95): the original phrase
contains no space and no hyphen. -/
def lenHeuristicGuard (original : Str) : Bool :=
  decide (' ' ∉ original) && decide ('-' ∉ original)

/-- `is_valid_phrase` (main.py:77-99), with `len(set(normalized_words))`
modelled as `nw.dedup.length` (the number of distinct normalized words). -/
def is_valid_phrase (cfg : Cfg) (wl : List Str) (subs : SubTable) (maxCh : Nat)
    (words : List Str) (original : Str) : Bool :=
  if ¬ (cfg.minLen ≤ (words.map (fun w => normalize_word w subs wl)).length ∧
      (words.map (fun w => normalize_word w subs wl)).length ≤ cfg.maxLen) then false
  else if (words.map (fun w => normalize_word w subs wl)).length
      ≠ (words.map (fun w => normalize_word w subs wl)).dedup.length then false
  else if ((words.map (fun w => normalize_word w subs wl)).filter
      (hitWord wl maxCh)).length < cfg.minMatches then false
  else if lenHeuristicGuard original then
    decide (cfg.minLen * 8 ≤ original.length ∧ original.length ≤ cfg.maxLen * 8)
  else true

/-- The (window tokens, original phrase) pairs submitted to the validator
by one sliding-window pass (main.py:107-115, and 119-127 for the hyphen
pass): every start index `i` and window length in `[minLen, maxLen]` that
fits; the tokens are the cleaned words of the window and the original
phrase is the corresponding raw words joined by single spaces. -/
def windowCalls (cfg : Cfg) (text : Str) : List (List Str × Str) :=
  (List.range (pySplit text).length).flatMap (fun i =>
    ((List.range' cfg.minLen (cfg.maxLen + 1 - cfg.minLen)).filter
        (fun len => decide (i + len ≤ (pySplit text).length))).map (fun len =>
      ((((pySplit text).map cleanToken).drop i).take len,
        joinSp (((pySplit text).drop i).take len))))

/-- Pass 2 (main.py:118-127): run only when the text contains a hyphen,
on the text with every hyphen replaced by a space. -/
def hyphenCalls (cfg : Cfg) (text : Str) : List (List Str × Str) :=
  if '-' ∈ text then
    windowCalls cfg (text.map (fun c => if c = '-' then ' ' else c))
  else []

/-- The 8-character chunks of a block (main.py:133): `chunk[j:j+8]` for
`j = 0, 8, 16, ...`, keeping only chunks of at least 3 characters. -/
def chunksOf8 (s : Str) : List Str :=
  ((List.range ((s.length + 7) / 8)).map (fun j => (s.drop (j * 8)).take 8)).filter
    (fun w => decide (3 ≤ w.length))

/-- Pass 3 (main.py:130-137): for each window of `maxLen * 8` characters
starting at `i ≤ len(text) - minLen * 8`, chunk it into 8-character
pieces; when at least `minLen` chunks remain, validate them (the original
phrase is the chunks joined by spaces). -/
def chunkCalls (cfg : Cfg) (text : Str) : List (List Str × Str) :=
  if cfg.minLen * 8 ≤ text.length then
    (List.range (text.length - cfg.minLen * 8 + 1)).filterMap (fun i =>
      let ws := chunksOf8 ((text.drop i).take (cfg.maxLen * 8))
      if cfg.minLen ≤ ws.length then some (ws, joinSp ws) else none)
  else []

/-- All validator calls `extract_phrases_from_text` makes on one text
(after prefix/suffix cleaning), in order. -/
def validationCalls (cfg : Cfg) (text : Str) : List (List Str × Str) :=
  windowCalls cfg (clean_prefix_suffix text)
    ++ hyphenCalls cfg (clean_prefix_suffix text)
    ++ chunkCalls cfg (clean_prefix_suffix text)

/-- `extract_phrases_from_text` (main.py:101-139): the set of original
phrases of the validator calls that pass `is_valid_phrase`. -/
def extract_phrases_from_text (cfg : Cfg) (wl : List Str) (subs : SubTable)
    (maxCh : Nat) (text : Str) : Finset Str :=
  (((validationCalls cfg text).filter (fun pr =>
      is_valid_phrase cfg wl subs maxCh pr.1 pr.2)).map Prod.snd).toFinset

theorem space_mem_joinSp (ws : List Str) (h : 2 ≤ ws.length) : ' ' ∈ joinSp ws := by
  match ws with
  | [] => simp at h
  | [w] => simp at h
  | w :: v :: rest =>
    rw [show joinSp (w :: v :: rest) = w ++ ' ' :: joinSp (v :: rest) from rfl]
    exact List.mem_append_right _ (List.mem_cons_self _ _)

/-- Every validator call of the extractor validates a token window against
the space-join of an equally long list of display tokens, and that window
has at least `minLen` tokens. -/
theorem validationCalls_shape (cfg : Cfg) (text : Str) :
    ∀ pr ∈ validationCalls cfg text, ∃ ws : List Str,
      pr.2 = joinSp ws ∧ ws.length = pr.1.length ∧ cfg.minLen ≤ ws.length := by
  have hwin : ∀ t : Str, ∀ pr ∈ windowCalls cfg t, ∃ ws : List Str,
      pr.2 = joinSp ws ∧ ws.length = pr.1.length ∧ cfg.minLen ≤ ws.length := by
    intro t pr hpr
    unfold windowCalls at hpr
    rw [List.mem_flatMap] at hpr
    obtain ⟨i, hi, hpr⟩ := hpr
    rw [List.mem_map] at hpr
    obtain ⟨len, hlen, rfl⟩ := hpr
    rw [List.mem_filter, decide_eq_true_eq] at hlen
    obtain ⟨hlen1, hlen2⟩ := hlen
    rw [List.mem_range'] at hlen1
    refine ⟨((pySplit t).drop i).take len, rfl, ?_, ?_⟩
    · simp [List.length_take, List.length_drop, List.length_map]
    · rw [List.length_take, List.length_drop]
      omega
  intro pr hpr
  unfold validationCalls at hpr
  rw [List.mem_append, List.mem_append] at hpr
  rcases hpr with (hpr | hpr) | hpr
  · exact hwin _ pr hpr
  · unfold hyphenCalls at hpr
    split at hpr
    · exact hwin _ pr hpr
    · simp at hpr
  · unfold chunkCalls at hpr
    split at hpr
    · rw [List.mem_filterMap] at hpr
      obtain ⟨i, hi, hopt⟩ := hpr
      simp only at hopt
      split at hopt
      · rename_i hws
        rw [Option.some_inj] at hopt
        subst hopt
        exact ⟨_, rfl, rfl, hws⟩
      · simp at hopt
    · simp at hpr

theorem is_valid_false_of_bounds (cfg : Cfg) (wl : List Str) (subs : SubTable) (maxCh : Nat)
    (words : List Str) (original : Str)
    (hb : words.length < cfg.minLen ∨ cfg.maxLen < words.length) :
    is_valid_phrase cfg wl subs maxCh words original = false := by
  have hcond : ¬ (cfg.minLen ≤ (words.map (fun w => normalize_word w subs wl)).length ∧
      (words.map (fun w => normalize_word w subs wl)).length ≤ cfg.maxLen) := by
    rw [List.length_map]
    omega
  unfold is_valid_phrase
  rw [if_pos hcond]

theorem is_valid_false_of_hits (cfg : Cfg) (wl : List Str) (subs : SubTable) (maxCh : Nat)
    (words : List Str) (original : Str)
    (hcnt : ((words.map (fun w => normalize_word w subs wl)).filter (hitWord wl maxCh)).length
      < cfg.minMatches) :
    is_valid_phrase cfg wl subs maxCh words original = false := by
  unfold is_valid_phrase
  split
  · rfl
  · split
    · rfl
    · rfl

theorem is_valid_true_bounds (cfg : Cfg) (wl : List Str) (subs : SubTable) (maxCh : Nat)
    (words : List Str) (original : Str)
    (h : is_valid_phrase cfg wl subs maxCh words original = true) :
    cfg.minLen ≤ words.length ∧ words.length ≤ cfg.maxLen := by
  by_contra hb
  have hfalse := is_valid_false_of_bounds cfg wl subs maxCh words original (by omega)
  rw [h] at hfalse
  exact absurd hfalse (by simp)

theorem is_valid_true_hits (cfg : Cfg) (wl : List Str) (subs : SubTable) (maxCh : Nat)
    (words : List Str) (original : Str)
    (h : is_valid_phrase cfg wl subs maxCh words original = true) :
    cfg.minMatches ≤
      ((words.map (fun w => normalize_word w subs wl)).filter (hitWord wl maxCh)).length := by
  by_contra hcnt
  have hfalse := is_valid_false_of_hits cfg wl subs maxCh words original (by omega)
  rw [h] at hfalse
  exact absurd hfalse (by simp)

theorem is_valid_false_of_dup (cfg : Cfg) (wl : List Str) (subs : SubTable) (maxCh : Nat)
    (words : List Str) (original : Str)
    (hd : ¬ (words.map (fun w => normalize_word w subs wl)).Nodup) :
    is_valid_phrase cfg wl subs maxCh words original = false := by
  have hne : (words.map (fun w => normalize_word w subs wl)).length
      ≠ (words.map (fun w => normalize_word w subs wl)).dedup.length := by
    intro he
    have hsub := List.dedup_sublist (words.map (fun w => normalize_word w subs wl))
    have heq := hsub.eq_of_length he.symm
    exact hd (heq ▸ List.nodup_dedup _)
  unfold is_valid_phrase
  split
  · rfl
  · rfl

/-- Membership in the extractor's result set: exactly the original phrases
of the calls that pass the validator. -/
theorem mem_extract_iff (cfg : Cfg) (wl : List Str) (subs : SubTable) (maxCh : Nat)
    (text : Str) (phrase : Str) :
    phrase ∈ extract_phrases_from_text cfg wl subs maxCh text ↔
      ∃ toks, (toks, phrase) ∈ validationCalls cfg text ∧
        is_valid_phrase cfg wl subs maxCh toks phrase = true := by
  unfold extract_phrases_from_text
  rw [List.mem_toFinset, List.mem_map]
  constructor
  · rintro ⟨pr, hpr, rfl⟩
    rw [List.mem_filter] at hpr
    exact ⟨pr.1, hpr.1, hpr.2⟩
  · rintro ⟨toks, hmem, hval⟩
    exact ⟨(toks, phrase), List.mem_filter.mpr ⟨hmem, hval⟩, rfl⟩

/-- Claim C7: `is_valid_phrase` returns false for every word list whose
length lies outside `[MIN_PHRASE_LENGTH, MAX_PHRASE_LENGTH]`, regardless
of the other arguments; consequently every candidate phrase emitted by
`extract_phrases_from_text` is the space-join of a token window whose
length lies within those bounds. -/
theorem c7_length_bounds (cfg : Cfg) (wl : List Str) (subs : SubTable) (maxCh : Nat) :
    (∀ words original, words.length < cfg.minLen ∨ cfg.maxLen < words.length →
        is_valid_phrase cfg wl subs maxCh words original = false) ∧
    (∀ text phrase, phrase ∈ extract_phrases_from_text cfg wl subs maxCh text →
        ∃ ws : List Str, phrase = joinSp ws ∧ cfg.minLen ≤ ws.length ∧ ws.length ≤ cfg.maxLen) := by
  constructor
  · intro words original hb
    exact is_valid_false_of_bounds cfg wl subs maxCh words original hb
  · intro text phrase hmem
    rw [mem_extract_iff] at hmem
    obtain ⟨toks, hcall, hval⟩ := hmem
    obtain ⟨ws, hws, hlen, hmin⟩ := validationCalls_shape cfg text (toks, phrase) hcall
    obtain ⟨hb1, hb2⟩ := is_valid_true_bounds cfg wl subs maxCh toks phrase hval
    dsimp only at hws hlen
    exact ⟨ws, hws, by omega, by omega⟩

/-- Witness for C7: a one-token window is rejected under minLen 2, and the
phrase emitted from "ab cd" is a join of a window of 2 tokens. -/
theorem c7_length_bounds_witness :
    is_valid_phrase ⟨2, 3, 1⟩ [['a', 'b'], ['c', 'd']] [] 0 [['a']] ['a'] = false ∧
      ∃ ws : List Str, (['a', 'b', ' ', 'c', 'd'] : Str) = joinSp ws ∧
        2 ≤ ws.length ∧ ws.length ≤ 3 :=
  ⟨(c7_length_bounds ⟨2, 3, 1⟩ [['a', 'b'], ['c', 'd']] [] 0).1 [['a']] ['a'] (by decide),
   (c7_length_bounds ⟨2, 3, 1⟩ [['a', 'b'], ['c', 'd']] [] 0).2
     ['a', 'b', ' ', 'c', 'd'] ['a', 'b', ' ', 'c', 'd'] (by decide)⟩

/-- Claim C6: every phrase returned by `extract_phrases_from_text` comes
from a validator call whose normalized tokens contain at least
`MIN_BIP39_MATCHES` tokens that are literal wordlist members or accepted
by the fuzzy matcher; and `is_valid_phrase` returns false whenever that
count is below `MIN_BIP39_MATCHES`. -/
theorem c6_min_hit_count (cfg : Cfg) (wl : List Str) (subs : SubTable) (maxCh : Nat) :
    (∀ text phrase, phrase ∈ extract_phrases_from_text cfg wl subs maxCh text →
        ∃ toks, (toks, phrase) ∈ validationCalls cfg text ∧
          cfg.minMatches ≤
            ((toks.map (fun w => normalize_word w subs wl)).filter (hitWord wl maxCh)).length) ∧
    (∀ words original,
        ((words.map (fun w => normalize_word w subs wl)).filter (hitWord wl maxCh)).length
            < cfg.minMatches →
          is_valid_phrase cfg wl subs maxCh words original = false) := by
  constructor
  · intro text phrase hmem
    rw [mem_extract_iff] at hmem
    obtain ⟨toks, hcall, hval⟩ := hmem
    exact ⟨toks, hcall, is_valid_true_hits cfg wl subs maxCh toks phrase hval⟩
  · intro words original hcnt
    exact is_valid_false_of_hits cfg wl subs maxCh words original hcnt

/-- Witness for C6 on the text "ab cd" with wordlist containing both
tokens, and a hit-starved window under minMatches 1. -/
theorem c6_min_hit_count_witness :
    (∃ toks, (toks, (['a', 'b', ' ', 'c', 'd'] : Str))
        ∈ validationCalls ⟨2, 3, 1⟩ ['a', 'b', ' ', 'c', 'd'] ∧
      1 ≤ ((toks.map (fun w => normalize_word w [] [['a', 'b'], ['c', 'd']])).filter
          (hitWord [['a', 'b'], ['c', 'd']] 0)).length) ∧
    is_valid_phrase ⟨2, 3, 1⟩ [['a', 'b'], ['c', 'd']] [] 0 [['z'], ['q']] ['z'] = false :=
  ⟨(c6_min_hit_count ⟨2, 3, 1⟩ [['a', 'b'], ['c', 'd']] [] 0).1
     ['a', 'b', ' ', 'c', 'd'] ['a', 'b', ' ', 'c', 'd'] (by decide),
   (c6_min_hit_count ⟨2, 3, 1⟩ [['a', 'b'], ['c', 'd']] [] 0).2 [['z'], ['q']] ['z'] (by decide)⟩

/-- Claim C8: under the program's no-duplicates rule, `is_valid_phrase`
returns false for every window in which two tokens have the same
normalized form. -/
theorem c8_duplicate_rejected (cfg : Cfg) (wl : List Str) (subs : SubTable) (maxCh : Nat)
    (words : List Str) (original : Str)
    (i j : Fin (words.map (fun w => normalize_word w subs wl)).length)
    (hij : i ≠ j)
    (heq : (words.map (fun w => normalize_word w subs wl)).get i
      = (words.map (fun w => normalize_word w subs wl)).get j) :
    is_valid_phrase cfg wl subs maxCh words original = false := by
  apply is_valid_false_of_dup
  intro hnd
  exact hij (List.nodup_iff_injective_get.mp hnd heq)

/-- Witness for C8: the window ["a", "a"] is rejected. -/
theorem c8_duplicate_rejected_witness :
    is_valid_phrase ⟨2, 3, 1⟩ [] [] 0 [['a'], ['a']] ['a'] = false :=
  c8_duplicate_rejected ⟨2, 3, 1⟩ [] [] 0 [['a'], ['a']] ['a']
    ⟨0, by decide⟩ ⟨1, by decide⟩ (by decide) (by decide)

/-- Claim C10: with `MIN_PHRASE_LENGTH ≥ 2`, every original phrase the
extractor submits to `is_valid_phrase` contains a space (all three passes
join their display tokens with a single space and submit at least two of
them), so the validator's space-free length-heuristic branch is never
entered on any call made by the extractor. -/
theorem c10_heuristic_unreachable (cfg : Cfg) (text : Str) (h2 : 2 ≤ cfg.minLen) :
    ∀ pr ∈ validationCalls cfg text, ' ' ∈ pr.2 ∧ lenHeuristicGuard pr.2 = false := by
  intro pr hpr
  obtain ⟨ws, hws, hlen, hmin⟩ := validationCalls_shape cfg text pr hpr
  have hsp : ' ' ∈ pr.2 := by
    rw [hws]
    exact space_mem_joinSp ws (by omega)
  refine ⟨hsp, ?_⟩
  unfold lenHeuristicGuard
  have hne : decide (' ' ∉ pr.2) = false := by simp [hsp]
  rw [hne, Bool.false_and]

/-- Witness for C10 at the text "ab cd" with minLen 2. -/
theorem c10_heuristic_unreachable_witness :
    ' ' ∈ (([['a', 'b'], ['c', 'd']], (['a', 'b', ' ', 'c', 'd'] : Str)) : List Str × Str).2 ∧
      lenHeuristicGuard (([['a', 'b'], ['c', 'd']], (['a', 'b', ' ', 'c', 'd'] : Str)) : List Str × Str).2 = false :=
  c10_heuristic_unreachable ⟨2, 3, 1⟩ ['a', 'b', ' ', 'c', 'd'] (by decide)
    ([['a', 'b'], ['c', 'd']], ['a', 'b', ' ', 'c', 'd']) (by decide)

theorem tailMatches_append_ws (w : Str) (c : Char) (rest : Str)
    (hw : ∀ x ∈ w, wsChar x = true) (hc : c ≠ '\n') :
    tailMatches (w ++ c :: rest) = true := by
  induction w with
  | nil => simp [tailMatches, hc]
  | cons x w ih =>
    rw [List.cons_append]
    rw [show tailMatches (x :: (w ++ c :: rest))
      = (decide (x ≠ '\n') || (wsChar x && tailMatches (w ++ c :: rest))) from rfl]
    rw [ih (fun y hy => hw y (List.mem_cons_of_mem x hy)),
      hw x (List.mem_cons_self x w)]
    simp

theorem splitAux_noWs (s : Str) (hs : ∀ x ∈ s, wsChar x = false) :
    ∀ acc : Str, splitAux s acc = [acc.reverse ++ s] := by
  induction s with
  | nil => intro acc; simp [splitAux]
  | cons c rest ih =>
    intro acc
    rw [show splitAux (c :: rest) acc
      = (if wsChar c then acc.reverse :: splitAux rest []
         else splitAux rest (c :: acc)) from rfl]
    rw [hs c (List.mem_cons_self c rest), if_neg (by simp)]
    rw [ih (fun y hy => hs y (List.mem_cons_of_mem c hy)) (c :: acc)]
    simp

theorem pySplit_single (s : Str) (hne : s ≠ []) (hs : ∀ x ∈ s, wsChar x = false) :
    pySplit s = [s] := by
  unfold pySplit
  rw [splitAux_noWs s hs []]
  simp [hne]

theorem pyStrip_noWs (s : Str) (hs : ∀ x ∈ s, wsChar x = false) : pyStrip s = s := by
  have hdw : ∀ t : Str, (∀ x ∈ t, wsChar x = false) → t.dropWhile wsChar = t := by
    intro t ht
    cases t with
    | nil => rfl
    | cons c rest =>
      rw [List.dropWhile_cons, ht c (List.mem_cons_self c rest)]
      simp
  unfold pyStrip
  rw [hdw s hs, hdw s.reverse (fun x hx => hs x (List.mem_reverse.mp hx)), List.reverse_reverse]

theorem windowCalls_eq_nil (cfg : Cfg) (t : Str) (h : (pySplit t).length < cfg.minLen) :
    windowCalls cfg t = [] := by
  unfold windowCalls
  rw [List.flatMap_eq_nil_iff]
  intro i hi
  have hfil : (List.range' cfg.minLen (cfg.maxLen + 1 - cfg.minLen)).filter
      (fun len => decide (i + len ≤ (pySplit t).length)) = [] := by
    rw [List.filter_eq_nil_iff]
    intro len hlen
    obtain ⟨hge, _⟩ := List.mem_range'_1.mp hlen
    simp only [decide_eq_true_eq]
    omega
  rw [hfil]
  rfl

/-- Claim C5: for every text beginning (case-insensitively) with one of
the prefixes myseed/btc/wallet/phrase/seed followed, after optional
same-line whitespace, by at least one further non-newline character, and
every configuration with `MIN_PHRASE_LENGTH ≥ 2`,
`extract_phrases_from_text` returns the empty set: `clean_prefix_suffix`
returns the matched prefix word itself (regex capture group 1), so no
extraction pass sees the original content. -/
theorem c5_prefix_swallows_content (cfg : Cfg) (wl : List Str) (subs : SubTable)
    (maxCh : Nat) (text : Str) (h2 : 2 ≤ cfg.minLen)
    (hp : ∃ p ∈ pfxList, startsWithCI p text = true ∧
      ∃ w c rest, text.drop p.length = w ++ c :: rest ∧
        (∀ x ∈ w, wsChar x = true ∧ x ≠ '\n') ∧ c ≠ '\n') :
    pyLower (clean_prefix_suffix text) ∈ pfxList ∧
      extract_phrases_from_text cfg wl subs maxCh text = ∅ := by
  obtain ⟨p, hpmem, hstart, w, c, rest, hdrop, hw, hc⟩ := hp
  -- the prefix pattern matches, so `pat1 text` is some matched group
  have hsome : ∃ g, pat1 text = some g := by
    by_cases hnone : pat1 text = none
    · exfalso
      have hall := List.findSome?_eq_none_iff.mp hnone p hpmem
      rw [hstart, hdrop,
        tailMatches_append_ws w c rest (fun x hx => (hw x hx).1) hc] at hall
      simp at hall
    · exact Option.ne_none_iff_exists'.mp hnone
  obtain ⟨g, hg⟩ := hsome
  -- the group is `text.take |p'|` for some alternative p' that matches
  obtain ⟨p', hp'mem, hp'⟩ := List.exists_of_findSome?_eq_some hg
  have hp'start : startsWithCI p' text = true := by
    by_cases hs : startsWithCI p' text && tailMatches (text.drop p'.length)
    · exact (Bool.and_eq_true _ _ |>.mp hs).1
    · rw [if_neg hs] at hp'
      exact absurd hp' (by simp)
  have hgval : g = text.take p'.length := by
    by_cases hs : startsWithCI p' text && tailMatches (text.drop p'.length)
    · rw [if_pos hs, Option.some_inj] at hp'
      exact hp'.symm
    · rw [if_neg hs] at hp'
      exact absurd hp' (by simp)
  -- the lowered group is exactly the alternative p'
  have hlow : pyLower g = p' := by
    have hpre : (pyLower p') <+: (pyLower text) :=
      List.isPrefixOf_iff_prefix.mp hp'start
    have htake : pyLower p' = (pyLower text).take (pyLower p').length :=
      List.prefix_iff_eq_take.mp hpre
    have hplow : pyLower p' = p' := by fin_cases hp'mem <;> decide
    rw [hplow] at htake
    rw [hgval]
    unfold pyLower
    rw [List.map_take]
    exact htake.symm
  have hlen6 : g.length = p'.length := by
    have h1 : (pyLower g).length = p'.length := by rw [hlow]
    unfold pyLower at h1
    rw [List.length_map] at h1
    exact h1
  have hplen3 : 3 ≤ p'.length := by fin_cases hp'mem <;> decide
  have hplen6 : p'.length ≤ 6 := by fin_cases hp'mem <;> decide
  -- characters of the group: no whitespace, no hyphen
  have hgchars : ∀ x ∈ g, wsChar x = false ∧ x ≠ '-' := by
    intro x hx
    have hxl : pyLowerChar x ∈ p' := by
      rw [← hlow]
      exact List.mem_map_of_mem pyLowerChar hx
    constructor
    · by_contra hws
      rw [Bool.not_eq_false] at hws
      unfold wsChar at hws
      simp only [Bool.or_eq_true, decide_eq_true_eq] at hws
      rcases hws with ((((h | h) | h) | h) | h) | h <;> subst h <;>
        (fin_cases hp'mem <;> exact absurd hxl (by decide))
    · intro heq
      subst heq
      fin_cases hp'mem <;> exact absurd hxl (by decide)
  -- the cleaner returns exactly the matched group
  have hclean : clean_prefix_suffix text = g := by
    unfold clean_prefix_suffix
    rw [hg]
    exact pyStrip_noWs g (fun x hx => (hgchars x hx).1)
  have hcon1 : pyLower (clean_prefix_suffix text) ∈ pfxList := by
    rw [hclean, hlow]
    exact hp'mem
  refine ⟨hcon1, ?_⟩
  -- all three passes on the short, space-free, hyphen-free group are empty
  have hgne : g ≠ [] := by
    intro h0
    rw [h0] at hlen6
    simp at hlen6
    omega
  have hsplit1 : pySplit g = [g] :=
    pySplit_single g hgne (fun x hx => (hgchars x hx).1)
  have hwin : windowCalls cfg g = [] := by
    apply windowCalls_eq_nil
    rw [hsplit1]
    simp only [List.length_cons, List.length_nil]
    omega
  have hhyp : hyphenCalls cfg g = [] := by
    unfold hyphenCalls
    rw [if_neg]
    intro hcontra
    exact (hgchars '-' hcontra).2 rfl
  have hchunk : chunkCalls cfg g = [] := by
    unfold chunkCalls
    rw [if_neg]
    intro hcontra
    rw [hlen6] at hcontra
    omega
  unfold extract_phrases_from_text validationCalls
  rw [hclean, hwin, hhyp, hchunk]
  rfl

/-- Witness for C5 at the text "wallet money". -/
theorem c5_prefix_swallows_content_witness :
    pyLower (clean_prefix_suffix
        ['w', 'a', 'l', 'l', 'e', 't', ' ', 'm', 'o', 'n', 'e', 'y']) ∈ pfxList ∧
      extract_phrases_from_text ⟨2, 24, 3⟩ [] [] 0
        ['w', 'a', 'l', 'l', 'e', 't', ' ', 'm', 'o', 'n', 'e', 'y'] = ∅ :=
  c5_prefix_swallows_content ⟨2, 24, 3⟩ [] [] 0
    ['w', 'a', 'l', 'l', 'e', 't', ' ', 'm', 'o', 'n', 'e', 'y'] (by decide)
    ⟨['w', 'a', 'l', 'l', 'e', 't'], by decide, by decide,
      [' '], 'm', ['o', 'n', 'e', 'y'], rfl, by decide, by decide⟩

/-! ### Towards the end-to-end scenario (claim C2) -/

theorem pyLowerChar_id_of (x : Char)
    (h : x = ' ' ∨ (97 ≤ x.toNat ∧ x.toNat ≤ 122)) : pyLowerChar x = x := by
  rcases h with h | h
  · subst h; decide
  · unfold pyLowerChar
    rw [if_neg (by omega), if_neg (by omega), if_neg (by omega)]

theorem wsChar_false_of_letter (x : Char) (h : 97 ≤ x.toNat ∧ x.toNat ≤ 122) :
    wsChar x = false := by
  have h1 : x ≠ ' ' := fun he => absurd (he ▸ h) (by decide)
  have h2 : x ≠ '\t' := fun he => absurd (he ▸ h) (by decide)
  have h3 : x ≠ '\n' := fun he => absurd (he ▸ h) (by decide)
  have h4 : x ≠ '\r' := fun he => absurd (he ▸ h) (by decide)
  have h5 : x ≠ Char.ofNat 11 := fun he => absurd (he ▸ h) (by decide)
  have h6 : x ≠ Char.ofNat 12 := fun he => absurd (he ▸ h) (by decide)
  simp [wsChar, h1, h2, h3, h4, h5, h6]

theorem mem_joinSp (ws : List Str) (x : Char) (hx : x ∈ joinSp ws) :
    x = ' ' ∨ ∃ w ∈ ws, x ∈ w := by
  induction ws with
  | nil => simp [joinSp] at hx
  | cons w vs ih =>
    cases vs with
    | nil =>
      rw [show joinSp [w] = w from rfl] at hx
      exact Or.inr ⟨w, List.mem_cons_self _ _, hx⟩
    | cons v rest =>
      rw [show joinSp (w :: v :: rest) = w ++ ' ' :: joinSp (v :: rest) from rfl] at hx
      rw [List.mem_append] at hx
      rcases hx with hx | hx
      · exact Or.inr ⟨w, List.mem_cons_self _ _, hx⟩
      · rw [List.mem_cons] at hx
        rcases hx with hx | hx
        · exact Or.inl hx
        · rcases ih hx with h | ⟨u, hu, hxu⟩
          · exact Or.inl h
          · exact Or.inr ⟨u, List.mem_cons_of_mem _ hu, hxu⟩

theorem pyLower_id (s : Str)
    (h : ∀ x ∈ s, x = ' ' ∨ (97 ≤ x.toNat ∧ x.toNat ≤ 122)) : pyLower s = s := by
  unfold pyLower
  calc s.map pyLowerChar = s.map id :=
        List.map_congr_left (fun x hx => pyLowerChar_id_of x (h x hx))
    _ = s := List.map_id s

theorem splitAux_word (w : Str) (hw : ∀ x ∈ w, wsChar x = false) :
    ∀ (t acc : Str), splitAux (w ++ ' ' :: t) acc = (acc.reverse ++ w) :: splitAux t [] := by
  induction w with
  | nil =>
    intro t acc
    rw [List.nil_append,
      show splitAux (' ' :: t) acc
        = (if wsChar ' ' then acc.reverse :: splitAux t []
           else splitAux t (' ' :: acc)) from rfl]
    rw [if_pos (by decide)]
    simp
  | cons c w ih =>
    intro t acc
    rw [List.cons_append,
      show splitAux (c :: (w ++ ' ' :: t)) acc
        = (if wsChar c then acc.reverse :: splitAux (w ++ ' ' :: t) []
           else splitAux (w ++ ' ' :: t) (c :: acc)) from rfl]
    rw [hw c (List.mem_cons_self c w), if_neg (by simp)]
    rw [ih (fun y hy => hw y (List.mem_cons_of_mem c hy)) t (c :: acc)]
    simp

theorem pySplit_joinSp (ws : List Str)
    (hW : ∀ w ∈ ws, w ≠ [] ∧ ∀ x ∈ w, wsChar x = false) :
    pySplit (joinSp ws) = ws := by
  induction ws with
  | nil => rfl
  | cons w vs ih =>
    cases vs with
    | nil =>
      rw [show joinSp [w] = w from rfl]
      exact pySplit_single w (hW w (List.mem_cons_self _ _)).1
        (hW w (List.mem_cons_self _ _)).2
    | cons v rest =>
      rw [show joinSp (w :: v :: rest) = w ++ ' ' :: joinSp (v :: rest) from rfl]
      unfold pySplit
      rw [splitAux_word w (hW w (List.mem_cons_self _ _)).2 (joinSp (v :: rest)) []]
      rw [List.filter_cons]
      rw [if_pos (by
        simp only [List.reverse_nil, List.nil_append]
        have := (hW w (List.mem_cons_self _ _)).1
        simp [List.isEmpty_iff, this])]
      have ihr := ih (fun u hu => hW u (List.mem_cons_of_mem w hu))
      unfold pySplit at ihr
      rw [List.reverse_nil, List.nil_append, ihr]

theorem cleanToken_id (w : Str) (h : ∀ x ∈ w, 97 ≤ x.toNat ∧ x.toNat ≤ 122) :
    cleanToken w = w := by
  unfold cleanToken
  rw [pyLower_id w (fun x hx => Or.inr (h x hx))]
  rw [List.filter_eq_self.mpr]
  intro x hx
  unfold keepAlpha
  have := h x hx
  simp only [Bool.or_eq_true, decide_eq_true_eq, Bool.and_eq_true]
  omega

theorem normalize_word_id (w : Str) (subs : SubTable) (wl : List Str)
    (hlow : pyLower w = w) (hmem : w ∈ wl) : normalize_word w subs wl = w := by
  unfold normalize_word
  rw [hlow, if_pos hmem]

theorem pat1_eq_none (text : Str)
    (hpfx : ∀ p ∈ pfxList, startsWithCI p text = false) : pat1 text = none := by
  rw [pat1, List.findSome?_eq_none_iff]
  intro p hp
  rw [hpfx p hp, Bool.false_and, if_neg (by simp)]

theorem restSuf_false (text : Str)
    (hchars : ∀ x ∈ text, x = ' ' ∨ (97 ≤ x.toNat ∧ x.toNat ≤ 122))
    (hsfx : ∀ s ∈ sufList, ¬ s <:+ text) :
    ∀ r : Str, r <:+ text → restSuf r = false := by
  intro r
  induction r with
  | nil =>
    intro _
    decide
  | cons c rest ih =>
    intro hr
    have hrest : rest <:+ text := (List.suffix_cons c rest).trans hr
    have hrl : pyLower (c :: rest) = c :: rest :=
      pyLower_id _ (fun x hx => hchars x (hr.subset hx))
    rw [show restSuf (c :: rest)
      = (suffixEndOk (c :: rest) || (wsChar c && restSuf rest)) from rfl]
    rw [ih hrest, Bool.and_false, Bool.or_false]
    rw [suffixEndOk, List.any_eq_false]
    intro s hs
    rw [hrl]
    have h1 : ((c :: rest : Str) == s) = false := by
      rw [beq_eq_false_iff_ne]
      intro he
      exact hsfx s hs (he ▸ hr)
    have h2 : ((c :: rest : Str) == s ++ ['\n']) = false := by
      rw [beq_eq_false_iff_ne]
      intro he
      have hn : '\n' ∈ (c :: rest : Str) := by
        rw [he]
        exact List.mem_append_right _ (List.mem_cons_self _ _)
      rcases hchars '\n' (hr.subset hn) with h | h
      · exact absurd h (by decide)
      · exact absurd h (by decide)
    rw [h1, h2]
    simp

theorem pat2_eq_none (text : Str)
    (hchars : ∀ x ∈ text, x = ' ' ∨ (97 ≤ x.toNat ∧ x.toNat ≤ 122))
    (hsfx : ∀ s ∈ sufList, ¬ s <:+ text) :
    pat2 text = none := by
  rw [pat2, List.findSome?_eq_none_iff]
  intro k _
  have hres : restSuf (text.drop (k + 1)) = false :=
    restSuf_false text hchars hsfx _ (List.drop_suffix _ _)
  rw [hres, Bool.and_false, if_neg (by simp)]

/-- With exactly `minLen = 12` tokens and window range `[12, 24]`, the
sliding-window pass checks exactly one window: all twelve tokens. -/
theorem windowCalls_twelve (t : Str) (h : (pySplit t).length = 12) :
    windowCalls ⟨12, 24, 3⟩ t = [((pySplit t).map cleanToken, joinSp (pySplit t))] := by
  unfold windowCalls
  dsimp only
  rw [h]
  rw [show List.range 12 = 0 :: List.range' 1 11 from by decide]
  rw [List.flatMap_cons]
  have hrest : (List.range' 1 11).flatMap (fun i =>
      ((List.range' 12 (24 + 1 - 12)).filter
          (fun len => decide (i + len ≤ 12))).map (fun len =>
        ((((pySplit t).map cleanToken).drop i).take len,
          joinSp (((pySplit t).drop i).take len)))) = [] := by
    rw [List.flatMap_eq_nil_iff]
    intro i hi
    obtain ⟨h1, _⟩ := List.mem_range'_1.mp hi
    have hfil : (List.range' 12 (24 + 1 - 12)).filter
        (fun len => decide (i + len ≤ 12)) = [] := by
      rw [List.filter_eq_nil_iff]
      intro len hlen
      obtain ⟨hge, _⟩ := List.mem_range'_1.mp hlen
      simp only [decide_eq_true_eq]
      omega
    rw [hfil]
    rfl
  rw [hrest, List.append_nil]
  rw [show (List.range' 12 (24 + 1 - 12)).filter
      (fun len => decide (0 + len ≤ 12)) = [12] from by decide]
  rw [List.map_cons, List.map_nil, List.drop_zero, List.drop_zero]
  rw [List.take_of_length_le (by rw [List.length_map, h]),
    List.take_of_length_le (le_of_eq h)]

/-- Claim C2 (amended): for every input text consisting of 12 distinct
wordlist words of lowercase ASCII letters separated by single spaces, with
`MIN_PHRASE_LENGTH = 12`, `MAX_PHRASE_LENGTH = 24`,
`MIN_BIP39_MATCHES = 3`, and provided the text does not begin
(case-insensitively) with one of the prefixes myseed/btc/wallet/phrase/seed,
does not end with one of the suffixes 123/pass/key (otherwise
`clean_prefix_suffix` mangles it first), and is shorter than
`MIN_PHRASE_LENGTH * 8 = 96` characters (otherwise the fixed-width chunk
pass may add further candidates), `extract_phrases_from_text` returns
exactly one candidate: the whole input phrase. -/
theorem c2_twelve_words (wl : List Str) (subs : SubTable) (maxCh : Nat) (ws : List Str)
    (hlen : ws.length = 12) (hnd : ws.Nodup) (hmem : ∀ w ∈ ws, w ∈ wl)
    (hchars : ∀ w ∈ ws, w ≠ [] ∧ ∀ x ∈ w, 97 ≤ x.toNat ∧ x.toNat ≤ 122)
    (hpfx : ∀ p ∈ pfxList, ¬ p <+: joinSp ws)
    (hsfx : ∀ s ∈ sufList, ¬ s <:+ joinSp ws)
    (hshort : (joinSp ws).length < 96) :
    extract_phrases_from_text ⟨12, 24, 3⟩ wl subs maxCh (joinSp ws) = {joinSp ws} := by
  have hallchars : ∀ x ∈ joinSp ws, x = ' ' ∨ (97 ≤ x.toNat ∧ x.toNat ≤ 122) := by
    intro x hx
    rcases mem_joinSp ws x hx with h | ⟨w, hw, hxw⟩
    · exact Or.inl h
    · exact Or.inr ((hchars w hw).2 x hxw)
  have hploweq : pyLower (joinSp ws) = joinSp ws := pyLower_id _ hallchars
  have hpfxB : ∀ p ∈ pfxList, startsWithCI p (joinSp ws) = false := by
    intro p hp
    have hplow : pyLower p = p := by fin_cases hp <;> decide
    unfold startsWithCI
    rw [hplow, hploweq]
    by_contra hb
    rw [Bool.not_eq_false] at hb
    exact hpfx p hp (List.isPrefixOf_iff_prefix.mp hb)
  have hclean : clean_prefix_suffix (joinSp ws) = joinSp ws := by
    unfold clean_prefix_suffix
    rw [pat1_eq_none _ hpfxB, pat2_eq_none _ hallchars hsfx]
  have hW : ∀ w ∈ ws, w ≠ [] ∧ ∀ x ∈ w, wsChar x = false := fun w hw =>
    ⟨(hchars w hw).1, fun x hx => wsChar_false_of_letter x ((hchars w hw).2 x hx)⟩
  have hsplit : pySplit (joinSp ws) = ws := pySplit_joinSp ws hW
  have hsplitlen : (pySplit (joinSp ws)).length = 12 := by rw [hsplit, hlen]
  have hwin := windowCalls_twelve (joinSp ws) hsplitlen
  rw [hsplit] at hwin
  have hcleanmap : ws.map cleanToken = ws :=
    calc ws.map cleanToken = ws.map id :=
          List.map_congr_left (fun w hw => cleanToken_id w ((hchars w hw).2))
      _ = ws := List.map_id ws
  rw [hcleanmap] at hwin
  have hdash : ('-' : Char) ∉ joinSp ws := by
    intro hd
    rcases hallchars '-' hd with h | h
    · exact absurd h (by decide)
    · exact absurd h (by decide)
  have hhyp : hyphenCalls ⟨12, 24, 3⟩ (joinSp ws) = [] := by
    unfold hyphenCalls
    rw [if_neg hdash]
  have hchunk : chunkCalls ⟨12, 24, 3⟩ (joinSp ws) = [] := by
    unfold chunkCalls
    rw [if_neg (by dsimp only; omega)]
  have hnorm : ws.map (fun w => normalize_word w subs wl) = ws := by
    calc ws.map (fun w => normalize_word w subs wl) = ws.map id :=
          List.map_congr_left (fun w hw => normalize_word_id w subs wl
            (pyLower_id w (fun x hx => Or.inr ((hchars w hw).2 x hx))) (hmem w hw))
      _ = ws := List.map_id ws
  have hvalid : is_valid_phrase ⟨12, 24, 3⟩ wl subs maxCh ws (joinSp ws) = true := by
    unfold is_valid_phrase
    rw [hnorm]
    rw [if_neg (not_not_intro ⟨by dsimp only; omega, by dsimp only; omega⟩)]
    rw [List.dedup_eq_self.mpr hnd]
    rw [if_neg (not_not_intro rfl)]
    have hfil : ws.filter (hitWord wl maxCh) = ws :=
      List.filter_eq_self.mpr (fun w hw => by
        unfold hitWord
        rw [decide_eq_true (hmem w hw), Bool.true_or])
    rw [hfil]
    rw [if_neg (by dsimp only; omega)]
    have hguard : lenHeuristicGuard (joinSp ws) = false := by
      unfold lenHeuristicGuard
      have hsp : ' ' ∈ joinSp ws := space_mem_joinSp ws (by omega)
      have hne : decide (' ' ∉ joinSp ws) = false := by simp [hsp]
      rw [hne, Bool.false_and]
    rw [hguard]
    simp
  unfold extract_phrases_from_text validationCalls
  rw [hclean, hwin, hhyp, hchunk, List.append_nil, List.append_nil]
  rw [List.filter_cons, if_pos (by dsimp only; rw [hvalid])]
  simp

/-- Twelve distinct English BIP39 wordlist words whose first word is
"seed" — which is also one of the prefix alternatives of
`clean_prefix_suffix`. -/
def wordsC2 : List Str :=
  ["seed".toList, "abandon".toList, "ability".toList, "able".toList,
   "about".toList, "above".toList, "absent".toList, "absorb".toList,
   "abstract".toList, "absurd".toList, "abuse".toList, "access".toList]

/-- Counterexample to claim C2 as stated: the input consists of 12
distinct valid wordlist words separated by single spaces, yet with
`MIN_PHRASE_LENGTH = 12`, `MAX_PHRASE_LENGTH = 24`,
`MIN_BIP39_MATCHES = 3` the extractor returns no candidate at all: the
text begins with "seed", so `clean_prefix_suffix` collapses it to the
bare word "seed" (regex group 1) before extraction. -/
theorem c2_counterexample :
    wordsC2.length = 12 ∧ wordsC2.Nodup ∧ (∀ w ∈ wordsC2, w ∈ wordsC2) ∧
      extract_phrases_from_text ⟨12, 24, 3⟩ wordsC2 COMMON_SUBSTITUTIONS 1
        (joinSp wordsC2) = ∅ ∧
      (∅ : Finset Str) ≠ {joinSp wordsC2} := by
  refine ⟨by decide, by decide, fun w hw => hw, by decide, by decide⟩

/-- Twelve distinct English BIP39 wordlist words avoiding the cleaner's
prefixes and suffixes, with total text length under 96. -/
def wordsW : List Str :=
  ["abandon".toList, "ability".toList, "able".toList, "about".toList,
   "above".toList, "absent".toList, "absorb".toList, "absurd".toList,
   "abuse".toList, "access".toList, "account".toList, "acid".toList]

/-- Witness for the amended C2 at a concrete 12-word phrase. -/
theorem c2_twelve_words_witness :
    extract_phrases_from_text ⟨12, 24, 3⟩ wordsW COMMON_SUBSTITUTIONS 1 (joinSp wordsW)
      = {joinSp wordsW} :=
  c2_twelve_words wordsW COMMON_SUBSTITUTIONS 1 wordsW (by decide) (by decide)
    (fun w hw => hw) (by decide) (by decide) (by decide) (by decide)

/-! ### The Segmenter (claim C3)

Modelled from the spec: the dynamic-programming Segmenter of spec section
4.4 is not part of src/main.py (whose concatenated-phrase pass uses fixed
8-character chunks instead, main.py:129-137); the definitions below follow
the spec's words: `reachable[0] = true`, `wordCountAt[0] = 0`; for each
end position `i` scan starts `j` from `max(0, i-8)` to `i-1` in order and
the first `j` with `reachable[j]` and `s[j:i]` in the wordlist wins,
setting `wordCountAt[i] = wordCountAt[j] + 1`; the whole string is
accepted iff `reachable[n]` and `8 ≤ wordCountAt[n] ≤ 24`.  A cell
`some wc` encodes `reachable = true` with `wordCountAt = wc`; `none`
encodes unreachable. -/

/-- `s[j:i]`. -/
def sliceStr (s : Str) (j i : Nat) : Str := (s.drop j).take (i - j)

/-- Modelled from the spec: one step of the Segmenter's inner scan — try
`j` from `max(0, i-8)` to `i-1` in order, first valid split wins. -/
def scanJ (wl : List Str) (s : Str) (t : List (Option Nat)) (i : Nat) : Option Nat :=
  ((List.range i).drop (i - 8)).findSome? (fun j =>
    match t.getD j none with
    | some wc => if sliceStr s j i ∈ wl then some (wc + 1) else none
    | none => none)

/-- Modelled from the spec: the Segmenter's DP table after processing end
positions `1 .. m` (index 0 holds `some 0`). -/
def segT (wl : List Str) (s : Str) : Nat → List (Option Nat)
  | 0 => [some 0]
  | m + 1 => segT wl s m ++ [scanJ wl s (segT wl s m) (m + 1)]

/-- The table cell for position `i` (`reachable[i]` / `wordCountAt[i]`). -/
def segCell (wl : List Str) (s : Str) (i : Nat) : Option Nat :=
  (segT wl s i).getD i none

/-- Modelled from the spec: accept the whole string iff `reachable[n]`
holds and `8 ≤ wordCountAt[n] ≤ 24`. -/
def segmenterAccepts (wl : List Str) (s : Str) : Bool :=
  match segCell wl s s.length with
  | some wc => decide (8 ≤ wc ∧ wc ≤ 24)
  | none => false

/-- Boundary `m`: total length of the first `m` words of the split. -/
def bnd (ws : List Str) (m : Nat) : Nat := ((ws.take m).map List.length).sum

/-- The spec's caveat "when no accidental shorter split exists earlier in
the scan order", formalized: every in-wordlist window-sized substring that
starts at an original word boundary ends exactly at the next boundary. -/
def noAccidentalSplit (wl : List Str) (ws : List Str) : Prop :=
  ∀ m < ws.length, ∀ i ≤ ws.flatten.length,
    bnd ws m < i → i - bnd ws m ≤ 8 → sliceStr ws.flatten (bnd ws m) i ∈ wl →
      i = bnd ws (m + 1)

theorem segT_length (wl : List Str) (s : Str) : ∀ m, (segT wl s m).length = m + 1 := by
  intro m
  induction m with
  | zero => rfl
  | succ m ih => rw [segT, List.length_append, ih]; rfl

theorem segT_getD_stable (wl : List Str) (s : Str) :
    ∀ m i, i ≤ m → (segT wl s m).getD i none = segCell wl s i := by
  intro m
  induction m with
  | zero =>
    intro i hi
    have : i = 0 := by omega
    subst this
    rfl
  | succ m ih =>
    intro i hi
    rcases Nat.lt_or_ge i (m + 1) with h | h
    · rw [segT, List.getD_append _ _ _ _ (by rw [segT_length]; omega)]
      exact ih i (by omega)
    · have hieq : i = m + 1 := by omega
      subst hieq
      rfl

theorem segCell_zero (wl : List Str) (s : Str) : segCell wl s 0 = some 0 := rfl

theorem segCell_succ (wl : List Str) (s : Str) (i : Nat) :
    segCell wl s (i + 1) = scanJ wl s (segT wl s i) (i + 1) := by
  unfold segCell
  rw [segT]
  have hl : (segT wl s i).length = i + 1 := segT_length wl s i
  rw [show (i + 1) = (segT wl s i).length from hl.symm]
  rw [List.getD_append_right _ _ _ _ (le_refl _)]
  simp

/-- The scan at position `i + 1` in terms of earlier cells. -/
theorem segCell_succ_cells (wl : List Str) (s : Str) (i : Nat) :
    segCell wl s (i + 1)
      = ((List.range (i + 1)).drop (i + 1 - 8)).findSome? (fun j =>
          match segCell wl s j with
          | some wc => if sliceStr s j (i + 1) ∈ wl then some (wc + 1) else none
          | none => none) := by
  rw [segCell_succ, scanJ]
  have hcong : ∀ (l : List Nat) (f g : Nat → Option Nat),
      (∀ x ∈ l, f x = g x) → l.findSome? f = l.findSome? g := by
    intro l
    induction l with
    | nil => intro f g h; rfl
    | cons a l ih =>
      intro f g h
      rw [List.findSome?_cons, List.findSome?_cons, h a (List.mem_cons_self a l)]
      cases g a with
      | none => exact ih f g (fun x hx => h x (List.mem_cons_of_mem a hx))
      | some v => rfl
  apply hcong
  intro j hj
  have hj2 : j < i + 1 := List.mem_range.mp (List.mem_of_mem_drop hj)
  rw [segT_getD_stable wl s i j (by omega)]

theorem drop_range_aux : ∀ (n s m : Nat), (List.range' s n).drop m = List.range' (s + m) (n - m) := by
  intro n
  induction n with
  | zero => intro s m; simp [List.range']
  | succ k ih =>
    intro s m
    cases m with
    | zero => simp
    | succ m' =>
      rw [List.range'_succ, List.drop_succ_cons, ih (s + 1) m']
      congr 1 <;> omega

/-- The scan window at end position `i` holds exactly the start positions
`j` with `i - 8 ≤ j < i`. -/
theorem mem_scan_window (x i : Nat) :
    x ∈ (List.range i).drop (i - 8) ↔ i - 8 ≤ x ∧ x < i := by
  rw [List.range_eq_range', drop_range_aux, List.mem_range'_1]
  omega

theorem findSome?_isSome_of_mem {α β : Type} (f : α → Option β) :
    ∀ (l : List α) (x : α), x ∈ l → (f x).isSome = true → (l.findSome? f).isSome = true := by
  intro l
  induction l with
  | nil => intro x hx _; cases hx
  | cons a t ih =>
    intro x hx hfx
    rw [List.findSome?_cons]
    cases hfa : f a with
    | some v => rfl
    | none =>
      rcases List.mem_cons.mp hx with h | h
      · subst h; rw [hfa] at hfx; cases hfx
      · exact ih x h hfx

/-- A first-hit scan returns `some v` as soon as one element yields
`some v` and every other element yields `none`. -/
theorem findSome?_eq_some_unique {α β : Type} (f : α → Option β) :
    ∀ (l : List α) (x : α) (v : β), x ∈ l → f x = some v →
      (∀ y ∈ l, y ≠ x → f y = none) → l.findSome? f = some v := by
  intro l
  induction l with
  | nil => intro x v hx _ _; cases hx
  | cons a t ih =>
    intro x v hx hfx hun
    rw [List.findSome?_cons]
    by_cases hax : a = x
    · subst hax; rw [hfx]
    · have hfa : f a = none := hun a (List.mem_cons_self a t) hax
      rw [hfa]
      have hx' : x ∈ t := by
        rcases List.mem_cons.mp hx with h | h
        · exact absurd h.symm hax
        · exact h
      exact ih x v hx' hfx (fun y hy hne => hun y (List.mem_cons_of_mem a hy) hne)

theorem bnd_succ (ws : List Str) (m : Nat) (h : m < ws.length) :
    bnd ws (m + 1) = bnd ws m + (ws[m]).length := by
  unfold bnd
  rw [List.take_succ, List.getElem?_eq_getElem h, List.map_append, List.sum_append]
  simp

theorem bnd_mono (ws : List Str) (m : Nat) : ∀ m', m ≤ m' → bnd ws m ≤ bnd ws m' := by
  intro m'
  induction m' with
  | zero =>
    intro h
    have : m = 0 := by omega
    subst this; exact le_refl _
  | succ k ih =>
    intro h
    rcases Nat.lt_or_ge m (k + 1) with hlt | hge
    · have h1 : bnd ws m ≤ bnd ws k := ih (by omega)
      have h2 : bnd ws k ≤ bnd ws (k + 1) := by
        unfold bnd
        rw [List.take_succ]
        simp
      exact le_trans h1 h2
    · have : m = k + 1 := by omega
      subst this; exact le_refl _

theorem bnd_strict_mono (ws : List Str) (hw : ∀ w ∈ ws, 1 ≤ w.length) (m : Nat) :
    ∀ m', m < m' → m' ≤ ws.length → bnd ws m < bnd ws m' := by
  intro m'
  induction m' with
  | zero => intro h _; exact absurd h (Nat.not_lt_zero m)
  | succ k ih =>
    intro hlt hle
    have hk : k < ws.length := by omega
    have hstep : bnd ws k < bnd ws (k + 1) := by
      rw [bnd_succ ws k hk]
      have h1 : 1 ≤ (ws[k]).length := hw _ (List.getElem_mem hk)
      omega
    rcases Nat.lt_or_ge m k with h | h
    · exact lt_trans (ih h (by omega)) hstep
    · have : m = k := by omega
      subst this; exact hstep

/-- With nonempty words the boundary map is injective below the word count. -/
theorem bnd_inj (ws : List Str) (hw : ∀ w ∈ ws, 1 ≤ w.length) (a b : Nat)
    (ha : a ≤ ws.length) (hb : b ≤ ws.length) (h : bnd ws a = bnd ws b) : a = b := by
  rcases Nat.lt_trichotomy a b with hab | hab | hab
  · exact absurd h (Nat.ne_of_lt (bnd_strict_mono ws hw a b hab hb))
  · exact hab
  · exact absurd h.symm (Nat.ne_of_lt (bnd_strict_mono ws hw b a hab ha))

theorem bnd_length_eq (ws : List Str) : bnd ws ws.length = ws.flatten.length := by
  unfold bnd
  rw [List.take_length, List.length_flatten]

theorem flatten_drop_bnd (ws : List Str) (m : Nat) :
    ws.flatten.drop (bnd ws m) = (ws.drop m).flatten := by
  have h : ws.flatten = (ws.take m).flatten ++ (ws.drop m).flatten := by
    rw [← List.flatten_append, List.take_append_drop]
  rw [h]
  have hlen : ((ws.take m).flatten).length = bnd ws m := by
    rw [List.length_flatten]; rfl
  rw [← hlen, List.drop_left]

/-- The substring between two consecutive boundaries is the word itself. -/
theorem slice_bnd (ws : List Str) (m : Nat) (h : m < ws.length) :
    sliceStr ws.flatten (bnd ws m) (bnd ws (m + 1)) = ws[m] := by
  unfold sliceStr
  rw [flatten_drop_bnd, bnd_succ ws m h, List.drop_eq_getElem_cons h]
  have h2 : bnd ws m + (ws[m]).length - bnd ws m = (ws[m]).length := by omega
  rw [h2, List.flatten_cons, List.take_left]

/-- Exact shape of the Segmenter table on a clean concatenation: a cell is
`some m` exactly at the `m`-th word boundary and `none` everywhere else,
provided the split admits no accidental earlier hit in the scan order. -/
theorem seg_exact (wl ws : List Str)
    (hmem : ∀ w ∈ ws, w ∈ wl)
    (hwlen : ∀ w ∈ ws, 1 ≤ w.length ∧ w.length ≤ 8)
    (hnas : noAccidentalSplit wl ws) :
    ∀ i, i ≤ ws.flatten.length →
      (∃ m, m ≤ ws.length ∧ i = bnd ws m ∧ segCell wl ws.flatten i = some m) ∨
      ((∀ m, m ≤ ws.length → i ≠ bnd ws m) ∧ segCell wl ws.flatten i = none) := by
  have hw1 : ∀ w ∈ ws, 1 ≤ w.length := fun w hw => (hwlen w hw).1
  intro i
  induction i using Nat.strong_induction_on with
  | _ i ih =>
    intro hi
    cases i with
    | zero => exact Or.inl ⟨0, Nat.zero_le _, rfl, segCell_zero wl ws.flatten⟩
    | succ i0 =>
      have hkey : ∀ y mm, mm ≤ ws.length → y = bnd ws mm → y < i0 + 1 →
          i0 + 1 - y ≤ 8 → sliceStr ws.flatten y (i0 + 1) ∈ wl →
          i0 + 1 = bnd ws (mm + 1) ∧ mm + 1 ≤ ws.length := by
        intro y mm hmm hy hylt hy8 hsl
        have hmmlt : mm < ws.length := by
          rcases Nat.lt_or_ge mm ws.length with h | h
          · exact h
          · exfalso
            have hmeq : mm = ws.length := by omega
            subst hmeq
            rw [bnd_length_eq ws] at hy
            omega
        subst hy
        have heq := hnas mm hmmlt (i0 + 1) hi hylt hy8 hsl
        exact ⟨heq, by omega⟩
      by_cases hex : ∃ m, m ≤ ws.length ∧ i0 + 1 = bnd ws m
      · obtain ⟨m, hmk, him⟩ := hex
        cases m with
        | zero =>
          exfalso
          have h0 : bnd ws 0 = 0 := rfl
          omega
        | succ m' =>
          left
          refine ⟨m' + 1, hmk, him, ?_⟩
          rw [segCell_succ_cells]
          have hm'lt : m' < ws.length := by omega
          have hbm'lt : bnd ws m' < i0 + 1 := by
            rw [him]
            exact bnd_strict_mono ws hw1 m' (m' + 1) (by omega) hmk
          have hb8 : i0 + 1 - bnd ws m' ≤ 8 := by
            rw [him, bnd_succ ws m' hm'lt]
            have := (hwlen _ (List.getElem_mem hm'lt)).2
            omega
          apply findSome?_eq_some_unique _ _ (bnd ws m') (m' + 1)
          · exact (mem_scan_window _ _).mpr ⟨by omega, hbm'lt⟩
          · have hcell : segCell wl ws.flatten (bnd ws m') = some m' := by
              have hble : bnd ws m' ≤ ws.flatten.length := by
                rw [← bnd_length_eq ws]
                exact bnd_mono ws m' ws.length (by omega)
              rcases ih (bnd ws m') hbm'lt hble with ⟨mm, hmm, heq, hc⟩ | ⟨hnb, _⟩
              · have hmmeq : mm = m' := bnd_inj ws hw1 mm m' hmm (by omega) heq.symm
                subst hmmeq
                exact hc
              · exact absurd rfl (hnb m' (by omega))
            have hsl : sliceStr ws.flatten (bnd ws m') (i0 + 1) ∈ wl := by
              rw [him, slice_bnd ws m' hm'lt]
              exact hmem _ (List.getElem_mem hm'lt)
            simp only [hcell, if_pos hsl]
          · intro y hy hyne
            have hywin := (mem_scan_window y (i0 + 1)).mp hy
            have hylt : y < i0 + 1 := hywin.2
            have hyle : y ≤ ws.flatten.length := by omega
            rcases ih y hylt hyle with ⟨mm, hmm, heq, hc⟩ | ⟨_, hc⟩
            · by_cases hsl : sliceStr ws.flatten y (i0 + 1) ∈ wl
              · exfalso
                obtain ⟨heq2, hle2⟩ := hkey y mm hmm heq hylt (by omega) hsl
                have hs1 : mm + 1 = m' + 1 :=
                  bnd_inj ws hw1 (mm + 1) (m' + 1) hle2 hmk (heq2.symm.trans him)
                have hmmeq : mm = m' := by omega
                subst hmmeq
                exact hyne heq
              · simp only [hc, if_neg hsl]
            · simp only [hc]
      · right
        constructor
        · intro m hm hne
          exact hex ⟨m, hm, hne⟩
        · rw [segCell_succ_cells, List.findSome?_eq_none_iff]
          intro y hy
          have hywin := (mem_scan_window y (i0 + 1)).mp hy
          have hylt : y < i0 + 1 := hywin.2
          have hyle : y ≤ ws.flatten.length := by omega
          rcases ih y hylt hyle with ⟨mm, hmm, heq, hc⟩ | ⟨_, hc⟩
          · by_cases hsl : sliceStr ws.flatten y (i0 + 1) ∈ wl
            · exfalso
              obtain ⟨heq2, hle2⟩ := hkey y mm hmm heq hylt (by omega) hsl
              exact hex ⟨mm + 1, hle2, heq2⟩
            · simp only [hc, if_neg hsl]
          · simp only [hc]

/-- Executable check equivalent to `noAccidentalSplit`. -/
def noAccSplitB (wl ws : List Str) : Bool :=
  (List.range ws.length).all fun m =>
    (List.range (ws.flatten.length + 1)).all fun i =>
      decide (bnd ws m < i → i - bnd ws m ≤ 8 →
        sliceStr ws.flatten (bnd ws m) i ∈ wl → i = bnd ws (m + 1))

theorem noAccSplitB_iff (wl ws : List Str) :
    noAccSplitB wl ws = true ↔ noAccidentalSplit wl ws := by
  unfold noAccSplitB noAccidentalSplit
  simp only [List.all_eq_true, List.mem_range, decide_eq_true_eq, Nat.lt_succ_iff]

/-- C3, corrected: for a string built by concatenating wordlist words
end-to-end (each word 1 to 8 characters, word count `k` with
`8 ≤ k ≤ 24`), the spec's Segmenter marks the full string reachable with
word count exactly `k` and accepts it — provided the concatenation admits
no accidental alternative split earlier in the scan order
(`noAccidentalSplit`).  Without that proviso the recovered count can
differ from `k`, see `c3_counterexample`. -/
theorem c3_segmenter_recovers_split (wl ws : List Str)
    (hmem : ∀ w ∈ ws, w ∈ wl)
    (hwlen : ∀ w ∈ ws, 1 ≤ w.length ∧ w.length ≤ 8)
    (hk8 : 8 ≤ ws.length) (hk24 : ws.length ≤ 24)
    (hnas : noAccidentalSplit wl ws) :
    segCell wl ws.flatten ws.flatten.length = some ws.length ∧
    segmenterAccepts wl ws.flatten = true := by
  have hw1 : ∀ w ∈ ws, 1 ≤ w.length := fun w hw => (hwlen w hw).1
  have hbk : ws.flatten.length = bnd ws ws.length := (bnd_length_eq ws).symm
  have hseg : segCell wl ws.flatten ws.flatten.length = some ws.length := by
    rcases seg_exact wl ws hmem hwlen hnas ws.flatten.length (le_refl _) with
      ⟨m, hm, him, hc⟩ | ⟨hnb, _⟩
    · have hmeq : m = ws.length :=
        bnd_inj ws hw1 m ws.length hm (le_refl _) (him.symm.trans hbk)
      subst hmeq
      exact hc
    · exact absurd hbk (hnb ws.length (le_refl _))
  refine ⟨hseg, ?_⟩
  unfold segmenterAccepts
  rw [hseg]
  exact decide_eq_true ⟨hk8, hk24⟩

/-- Eight distinct three-letter wordlist words for the C3 witness. -/
def wsW8 : List Str :=
  ["one".toList, "two".toList, "six".toList, "ten".toList,
   "red".toList, "big".toList, "dog".toList, "cat".toList]

theorem wsW8_nas : noAccidentalSplit wsW8 wsW8 :=
  (noAccSplitB_iff wsW8 wsW8).mp (by decide)

/-- Witness for C3 at a concrete clean concatenation of 8 words. -/
theorem c3_segmenter_recovers_split_witness :
    segCell wsW8 wsW8.flatten wsW8.flatten.length = some wsW8.length ∧
    segmenterAccepts wsW8 wsW8.flatten = true :=
  c3_segmenter_recovers_split wsW8 wsW8 (fun w hw => hw) (by decide) (by decide)
    (by decide) wsW8_nas

/-- Wordlist with a word that is a doubled copy of another. -/
def wlC3 : List Str := [['a', 'a', 'a'], ['a', 'a', 'a', 'a', 'a', 'a']]

/-- Sixteen concatenated copies of the three-letter word. -/
def wsC3 : List Str := List.replicate 16 ['a', 'a', 'a']

/-- Counterexample to the unqualified C3: sixteen concatenated wordlist
words (each within 1..8 characters, 8 ≤ 16 ≤ 24), yet the Segmenter
recovers word count 8 — the scan prefers the longer six-letter word at
every position — not the original 16. -/
theorem c3_counterexample :
    (∀ w ∈ wsC3, w ∈ wlC3) ∧ (∀ w ∈ wsC3, 1 ≤ w.length ∧ w.length ≤ 8) ∧
    8 ≤ wsC3.length ∧ wsC3.length ≤ 24 ∧
    segCell wlC3 wsC3.flatten wsC3.flatten.length = some 8 ∧
    (8 : Nat) ≠ wsC3.length := by
  refine ⟨by decide, by decide, by decide, by decide, by decide, by decide⟩
